import Mathlib

/-!
Verification of the purdy source parser and action-to-step compiler
(`purdy/parser.py`, `purdy/actions.py`).

Source text and token text are modelled as `List Char`; the tokenizer
(pygments, external to the core) is modelled as the stream of
`(token, text)` pairs it emits, so parsing functions take the stream
directly.  Only `'\n'` acts as a line separator, matching the behaviour
of the Python code on ordinary source text.
-/

namespace Purdy

/-- The pygments token categories used by the core, organized as a tree
(`Tok.parent`).  `Token` is the root; `Str` models
`Token.Literal.String`, `Prompt`/`Output`/`Traceback` model the
`Token.Generic` children used by the typewriter compiler. -/
inductive Tok where
  | Token
  | Text
  | Whitespace
  | Name
  | Keyword
  | Punctuation
  | Operator
  | Literal
  | Str
  | StrDouble
  | Number
  | Generic
  | Prompt
  | Output
  | Traceback
  deriving DecidableEq, Repr

/-- Parent link of the category tree (pygments token hierarchy). -/
def Tok.parent : Tok → Option Tok
  | .Token => none
  | .Text => some .Token
  | .Whitespace => some .Text
  | .Name => some .Token
  | .Keyword => some .Token
  | .Punctuation => some .Token
  | .Operator => some .Token
  | .Literal => some .Token
  | .Str => some .Literal
  | .StrDouble => some .Str
  | .Number => some .Literal
  | .Generic => some .Token
  | .Prompt => some .Generic
  | .Output => some .Generic
  | .Traceback => some .Generic

/-- Depth of a category in the tree, used as a termination measure for
walks along `Tok.parent`. -/
def Tok.rank : Tok → Nat
  | .Token => 0
  | .Text => 1
  | .Whitespace => 2
  | .Name => 1
  | .Keyword => 1
  | .Punctuation => 1
  | .Operator => 1
  | .Literal => 1
  | .Str => 2
  | .StrDouble => 3
  | .Number => 2
  | .Generic => 1
  | .Prompt => 2
  | .Output => 2
  | .Traceback => 2

theorem Tok.parent_rank_lt {t p : Tok} (h : t.parent = some p) : p.rank < t.rank := by
  cases t <;> simp [Tok.parent] at h <;> subst h <;> decide

/-- Walk of `token_is_a` along the parent chain
(`parser.py`, `token_is_a`, the `while` loop). -/
def token_is_a_go (o : Option Tok) (t2 : Tok) : Bool :=
  match o with
  | none => false
  | some p => if p = t2 then true else token_is_a_go p.parent t2
termination_by match o with | none => 0 | some p => p.rank + 1
decreasing_by
  simp_wf
  cases hp : p.parent with
  | none => simp [hp]
  | some q => simpa [hp] using Nat.succ_le_of_lt (Tok.parent_rank_lt hp)

/-- `token_is_a(token1, token2)`: true if `token1` is the same type as or a
child type of `token2` (`parser.py`). -/
def token_is_a (t1 t2 : Tok) : Bool :=
  if t1 = t2 then true else token_is_a_go t1.parent t2

/-- Walk of `token_ancestor` along the parent chain
(`parser.py`, `token_ancestor`, the `while` loop; returns the generic
`Token` when the chain is exhausted). -/
def token_ancestor_go (o : Option Tok) (l : List Tok) : Tok :=
  match o with
  | none => .Token
  | some p => if p ∈ l then p else token_ancestor_go p.parent l
termination_by match o with | none => 0 | some p => p.rank + 1
decreasing_by
  simp_wf
  cases hp : p.parent with
  | none => simp [hp]
  | some q => simpa [hp] using Nat.succ_le_of_lt (Tok.parent_rank_lt hp)

/-- `token_ancestor(token, ancestor_list)` (`parser.py`): map a token to
itself or its nearest ancestor in the approved list, defaulting to
`Token`. -/
def token_ancestor (t : Tok) (l : List Tok) : Tok :=
  if t ∈ l then t else token_ancestor_go t.parent l

/-- The strict ancestor chain of a token, nearest parent first. -/
def ancestorList (t : Tok) : List Tok :=
  match h : t.parent with
  | none => []
  | some p => p :: ancestorList p
termination_by t.rank
decreasing_by simp_wf; exact Tok.parent_rank_lt h

-- ===========================================================================
-- Lexer registry (`parser.py`, `LexerContainer`)
-- ===========================================================================

/-- The three registered lexers: `con` (Python Console), `py3` (Python 3),
`bash` (Bash Console). -/
inductive LexName where
  | con
  | py3
  | bash
  deriving DecidableEq, Repr

/-- `LexerContainer.is_lexer_console`: `con` and `bash` are console style
lexers, `py3` is not. -/
def is_lexer_console : LexName → Bool
  | .con => true
  | .py3 => false
  | .bash => true

/-- Python substring containment (`needle in haystack`). -/
def isSub (needle : List Char) : List Char → Bool
  | [] => List.isPrefixOf needle []
  | c :: rest => List.isPrefixOf needle (c :: rest) || isSub needle rest

/-- `LexerContainer.detect_lexer` (`parser.py`): heuristic lexer
auto-detection.  Note the `elif` chain: when the source starts with `#!`
but the first line names neither python nor a shell, control falls
through to the final `return` of the `py3` lexer without testing the
`"$ "` rule. -/
def detect_lexer (source : List Char) : LexName :=
  if List.isPrefixOf (">>> ".data) source ∨ isSub ("\n>>> ".data) source then
    .con
  else if List.isPrefixOf ("#!".data) source then
    let first := source.takeWhile (fun c => c ≠ '\n')
    if isSub ("python".data) first then .py3
    else if isSub ("/sh".data) first ∨ isSub ("/bash".data) first then .bash
    else .py3
  else if List.isPrefixOf ("$ ".data) source ∨ isSub ("\n$ ".data) source then
    .bash
  else .py3

-- ===========================================================================
-- Code representation (`parser.py`, `CodePart`, `CodeLine`)
-- ===========================================================================

/-- `CodePart`: a `(token, text)` pair. -/
structure CodePart where
  token : Tok
  text : List Char
  deriving DecidableEq, Repr

/-- `CodeLine`: a displayed line of code.  The `text` field is stored, as in
the Python constructor, which sets it to the concatenation of the parts'
texts at construction time. -/
structure CodeLine where
  parts : List CodePart
  lexer : LexName
  line_number : Int
  highlight : Bool
  text : List Char
  deriving DecidableEq, Repr

/-- Concatenation of the texts of a list of parts. -/
def partsText (parts : List CodePart) : List Char :=
  (parts.map CodePart.text).flatten

/-- `CodeLine.__init__(parts, lexer)` with the default `line_number=-1`,
`highlight=False`: copies the parts and derives `text`. -/
def CodeLine.make (parts : List CodePart) (lexer : LexName) : CodeLine :=
  { parts := parts, lexer := lexer, line_number := -1, highlight := false,
    text := partsText parts }

-- ===========================================================================
-- Source parser (`parser.py`, `_Parser`, `parse_source`)
-- ===========================================================================

/-- Parser state: the fragment accumulator `self.parts` and the emitted
`self.lines`. -/
structure PState where
  parts : List CodePart
  lines : List CodeLine
  deriving DecidableEq, Repr

/-- `str.splitlines(True)` restricted to `'\n'` separators: split after
every newline, keeping the newline at the end of each piece. -/
def splitKeepNl : List Char → List (List Char)
  | [] => []
  | c :: rest =>
    if c = '\n' then ['\n'] :: splitKeepNl rest
    else
      match splitKeepNl rest with
      | [] => [[c]]
      | seg :: segs => (c :: seg) :: segs

/-- `str.rstrip('\n')`: drop all trailing newline characters. -/
def rstripNl (l : List Char) : List Char :=
  (l.reverse.dropWhile (fun c => c = '\n')).reverse

/-- `_Parser.newline_handler`: flush the accumulator as one `CodeLine`,
synthesizing a single empty-text part when the accumulator is empty, then
reset. -/
def newline_handler (lexer : LexName) (tok : Tok) (s : PState) : PState :=
  let parts := if s.parts.isEmpty then [⟨tok, []⟩] else s.parts
  { parts := [], lines := s.lines ++ [CodeLine.make parts lexer] }

/-- `_Parser.string_handler`: a string token may be multi-line; iterate the
pieces of `splitlines(True)`, appending each piece stripped of its
newline, and flush the accumulator whenever a piece ended in a
newline. -/
def string_handler (lexer : LexName) (tok : Tok) (text : List Char)
    (s : PState) : PState :=
  (splitKeepNl text).foldl
    (fun st seg =>
      let parts := st.parts ++ [⟨tok, rstripNl seg⟩]
      if seg.getLast? = some '\n' then
        { parts := [], lines := st.lines ++ [CodeLine.make parts lexer] }
      else
        { st with parts := parts })
    s

/-- `_Parser.default_handler`: a trailing newline flushes the accumulator
as a completed line; otherwise the fragment joins the accumulator. -/
def default_handler (lexer : LexName) (tok : Tok) (text : List Char)
    (s : PState) : PState :=
  if text.getLast? = some '\n' then
    { parts := [],
      lines := s.lines ++ [CodeLine.make (s.parts ++ [⟨tok, rstripNl text⟩]) lexer] }
  else
    { s with parts := s.parts ++ [⟨tok, text⟩] }

/-- The dispatch of `_Parser.parse` on one emitted `(token, text)` pair:
newline sentinel, then empty text, then multi-line string, then the
default rule. -/
def handle_token (lexer : LexName) (s : PState) (p : Tok × List Char) : PState :=
  if p.2 = ['\n'] then newline_handler lexer p.1 s
  else if p.2 = [] then s
  else if token_is_a p.1 .Str ∧ '\n' ∈ p.2 then string_handler lexer p.1 p.2 s
  else default_handler lexer p.1 p.2 s

/-- `parse_source(source, lexer)`, with the tokenizer's emitted stream as
input: fold the dispatch over the stream and return the emitted lines. -/
def parse_source (stream : List (Tok × List Char)) (lexer : LexName) :
    List CodeLine :=
  (stream.foldl (handle_token lexer) { parts := [], lines := [] }).lines

-- ===========================================================================
-- Steps (`purdy/animation/cell`, as used by `actions.py`)
-- ===========================================================================

/-- Opaque handle for a display surface (`CodeBox`). -/
abbrev Box := Nat

/-- Modelled from the spec: the primitive Step vocabulary of the
`purdy.animation.cell` module (whose source is not part of the core
files), exactly as tabulated in the spec's external-interface contract.
Each constructor only carries primitive data; a `Sleep` carries its
duration in milliseconds.  Constructors that the source sometimes hands a
single line and sometimes a list uniformly carry a list here, a single
line passed as a one-element list. -/
inductive Step where
  | AddRows (box : Box) (lines : List CodeLine)
  | InsertRows (box : Box) (position : Int) (lines : List CodeLine)
  | ReplaceRows (box : Box) (position : Int) (lines : List CodeLine)
  | RemoveRows (box : Box) (position : Int) (size : Int)
  | Clear (box : Box)
  | SuffixRow (box : Box) (position : Int) (text : List Char) (cursor : Bool)
  | HighlightLines (box : Box) (numbers : List Int) (highlight_on : Bool)
  | CellEnd
  | StopMovie
  | Sleep (duration : Int)
  deriving DecidableEq, Repr

-- ===========================================================================
-- Single code blob actions (`actions.py`)
-- ===========================================================================

/-- `Append.steps`: parse the source and emit one `AddRows` step with all
parsed lines. -/
def append_steps (box : Box) (stream : List (Tok × List Char))
    (lexer : LexName) : List Step :=
  [Step.AddRows box (parse_source stream lexer)]

/-- `Insert.steps`: parse the source and emit one `InsertRows` step at the
given position. -/
def insert_steps (box : Box) (position : Int)
    (stream : List (Tok × List Char)) (lexer : LexName) : List Step :=
  [Step.InsertRows box position (parse_source stream lexer)]

-- ===========================================================================
-- Typewriter actions (`actions.py`, `TypewriterBase`, `TypewriterStep`)
-- ===========================================================================

/-- `TypewriterBase.continuous`: the categories output whole in one step
(membership is plain equality, as with Python's `in` on the list). -/
def continuous : List Tok := [.Prompt, .Output, .Traceback]

/-- The cursor glyph `'█'` appended during partial reveals. -/
def cursorGlyph : Char := Char.ofNat 0x2588

/-- `TypewriterBase.delay_until_next_letter` draws from the process random
source on each call; the draws are abstracted as a function `delays` from
the index of the call to the resulting duration, threaded through the
compilation as the count of `Sleep` steps emitted so far. -/
abbrev Delays := Nat → Int

/-- Recognizer for `Sleep` steps. -/
def isSleep : Step → Bool
  | .Sleep _ => true
  | _ => false

/-- The letter loop of `TypewriterStep._line_to_steps`: reveal the
remaining characters one by one on top of the fixed prefix `base`, the
running partial string `tw` updating the last entry of `current_parts`
(the appended placeholder part is overwritten on every letter by
`current_parts[-1] = new_part`, so the running list is always
`base ++ [partial]`); the cursor glyph part is appended except on the
last letter of the last part of the line; each `ReplaceRows` is followed
by a `Sleep` whose duration is the `k`-th delay draw. -/
def revealSteps (lexer : LexName) (box : Box) (pos : Int) (delays : Delays)
    (tok : Tok) (is_last_part : Bool) (base : List CodePart) :
    List Char → List Char → Nat → List Step
  | _, [], _ => []
  | tw, c :: rest, k =>
    let tw' := tw ++ [c]
    let cur := base ++ [⟨tok, tw'⟩]
    let is_last_letter := rest = []
    let output_parts :=
      if is_last_part ∧ is_last_letter then cur
      else cur ++ [⟨.Token, [cursorGlyph]⟩]
    let row_line := CodeLine.make output_parts lexer
    Step.ReplaceRows box pos [row_line] :: Step.Sleep (delays k) ::
      revealSteps lexer box pos delays tok is_last_part base tw' rest (k + 1)

/-- The fragment loop of `TypewriterStep._line_to_steps`: `continuous`
fragments are appended whole (a `Prompt` additionally emitting a
`CellEnd`) and draw no delay; other fragments are revealed letter by
letter via `revealSteps`, drawing one delay per letter, so the delay
index advances by the fragment's length.  `cur` is the accumulated
`current_parts` list. -/
def twParts (lexer : LexName) (box : Box) (pos : Int) (delays : Delays) :
    List CodePart → List CodePart → Nat → List Step
  | [], _, _ => []
  | p :: rest, cur, k =>
    if p.token ∈ continuous then
      let cur' := cur ++ [p]
      let step := Step.ReplaceRows box pos [CodeLine.make cur' lexer]
      let extra := if p.token = .Prompt then [Step.CellEnd] else []
      step :: extra ++ twParts lexer box pos delays rest cur' k
    else
      let is_last_part := rest = []
      revealSteps lexer box pos delays p.token is_last_part cur [] p.text k ++
        twParts lexer box pos delays rest (cur ++ [⟨p.token, p.text⟩])
          (k + p.text.length)

/-- `TypewriterStep._line_to_steps(line, position)`: in console mode a line
whose first fragment is not under `Generic.Prompt` is inserted whole;
otherwise a placeholder row is inserted and the fragments are animated. -/
def line_to_steps (lexer : LexName) (box : Box) (delays : Delays)
    (line : CodeLine) (position : Int) (k : Nat) : List Step :=
  let first_token := (line.parts.headD ⟨.Token, []⟩).token
  if is_lexer_console lexer ∧ ¬ token_is_a first_token .Prompt then
    [Step.InsertRows box position [line]]
  else
    let row_line := CodeLine.make [⟨.Token, []⟩] lexer
    Step.InsertRows box position [row_line] ::
      twParts lexer box position delays line.parts [] k

/-- The per-line loop of `TypewriterStep.steps`: the line at (0-based)
index `count` is compiled at position `position + count`; the delay index
advances by the number of delay draws the line consumed, one per `Sleep`
step emitted. -/
def twLines (lexer : LexName) (box : Box) (delays : Delays) :
    List CodeLine → Int → Nat → List Step
  | [], _, _ => []
  | l :: rest, position, k =>
    let ss := line_to_steps lexer box delays l position k
    ss ++ twLines lexer box delays rest (position + 1)
      (k + (ss.filter isSleep).length)

/-- `TypewriterStep.steps`: parse the source and expand every line. -/
def typewriter_steps (lexer : LexName) (box : Box) (delays : Delays)
    (stream : List (Tok × List Char)) (position : Int) : List Step :=
  twLines lexer box delays (parse_source stream lexer) position 0

/-- `AppendTypewriter.steps`: `TypewriterStep.steps` with the hard-coded
starting position `1` set by `AppendTypewriter.__init__`. -/
def append_typewriter_steps (lexer : LexName) (box : Box) (delays : Delays)
    (stream : List (Tok × List Char)) : List Step :=
  typewriter_steps lexer box delays stream 1

-- ===========================================================================
-- Statement-support definitions
-- ===========================================================================

/-- Concatenation of the texts emitted by a tokenizer stream. -/
def concatTexts (stream : List (Tok × List Char)) : List Char :=
  (stream.map (fun p => p.2)).flatten

/-- A text whose only possible newline is a single final character. -/
def okText (t : List Char) : Prop := '\n' ∉ t.dropLast

instance (t : List Char) : Decidable (okText t) := by
  unfold okText
  infer_instance

/-- The discipline actual tokenizers follow for each emitted pair: a
string-like token may hold newlines anywhere, any other text holds a
newline only as a single final character. -/
def wellFormedTok (p : Tok × List Char) : Prop :=
  token_is_a p.1 .Str = true ∨ okText p.2

/-- A source text with a trailing newline ensured (pygments appends one
when missing). -/
def ensureNl (S : List Char) : List Char :=
  if S.getLast? = some '\n' then S else S ++ ['\n']

/-- A source text up to a single optional trailing newline. -/
def removeTrailingNl (S : List Char) : List Char :=
  if S.getLast? = some '\n' then S.dropLast else S

/-- Every line's text followed by a newline, concatenated. -/
def linesRendered (ls : List CodeLine) : List Char :=
  (ls.map (fun l => l.text ++ ['\n'])).flatten

/-- Joining a list of texts with newline separators. -/
def joinWithNl : List (List Char) → List Char
  | [] => []
  | [t] => t
  | t :: rest => t ++ '\n' :: joinWithNl rest

/-- The positions carried by the `InsertRows` steps of a step list, in
order. -/
def insertPositions (ss : List Step) : List Int :=
  ss.filterMap (fun s =>
    match s with
    | .InsertRows _ p _ => some p
    | _ => none)

/-- Recognizer for `ReplaceRows` steps. -/
def isReplace : Step → Bool
  | .ReplaceRows _ _ _ => true
  | _ => false

/-- The payload lines of the `ReplaceRows` steps of a step list, in
order. -/
def replacedLines : List Step → List CodeLine
  | [] => []
  | .ReplaceRows _ _ ls :: rest => ls ++ replacedLines rest
  | _ :: rest => replacedLines rest

/-- The payload parts of the reveal step for the (0-based) `i`-th character
of a single fragment `⟨tok, txt⟩` animated on its own: the partial text up
to and including that character, with the cursor glyph part appended on
every step but the last. -/
def revealParts (tok : Tok) (txt : List Char) (i : Nat) : List CodePart :=
  [⟨tok, txt.take (i + 1)⟩] ++
    (if i + 1 = txt.length then [] else [⟨.Token, [cursorGlyph]⟩])

/-- Modelled from the spec: lexer auto-detection as the spec's precedence
list reads, amended so that a shebang first line matching neither
"python" nor "/sh"/"/bash" falls directly to the default source
tokenizer, without consulting the `"$ "` rule. -/
def detectSpec (s : List Char) : LexName :=
  let first := s.takeWhile (fun c => c ≠ '\n')
  if List.isPrefixOf (">>> ".data) s ∨ isSub ("\n>>> ".data) s then .con
  else if List.isPrefixOf ("#!".data) s ∧ isSub ("python".data) first then .py3
  else if List.isPrefixOf ("#!".data) s ∧
      (isSub ("/sh".data) first ∨ isSub ("/bash".data) first) then .bash
  else if List.isPrefixOf ("#!".data) s then .py3
  else if List.isPrefixOf ("$ ".data) s ∨ isSub ("\n$ ".data) s then .bash
  else .py3

/-- The full ancestor chain of a token starting from the token itself. -/
def chainOf (t : Tok) : List Tok := t :: ancestorList t

/-- Concrete source text for lexer detection: a ruby shebang followed by a
line starting with a shell prompt. -/
def rubyShebangSource : List Char := "#!/usr/bin/ruby\n$ ls\n".data

/-- Every `ReplaceRows` step of the list is immediately followed by a
`Sleep` step. -/
def replaceFollowedBySleep (ss : List Step) : Prop :=
  ∀ j, j < ss.length → isReplace (ss.getD j Step.CellEnd) = true →
    isSleep (ss.getD (j + 1) Step.CellEnd) = true

/-- Invariant of the parser state against the concatenation `pc` of the
already-processed token texts: every flushed line contributes its text
plus a newline, the pending fragments contribute their text, and no
newline character survives inside flushed or pending text. -/
def ParserInv (pc : List Char) (s : PState) : Prop :=
  linesRendered s.lines ++ partsText s.parts = pc ∧
  (∀ ln ∈ s.lines, '\n' ∉ ln.text) ∧
  '\n' ∉ partsText s.parts

-- ===========================================================================
-- Theorems
-- ===========================================================================

theorem ancestorList_none {t : Tok} (h : t.parent = none) :
    ancestorList t = [] := by
  rw [ancestorList]
  split <;> simp_all

theorem ancestorList_some {t q : Tok} (h : t.parent = some q) :
    ancestorList t = q :: ancestorList q := by
  rw [ancestorList]
  split <;> simp_all

theorem token_ancestor_go_eq (l : List Tok) :
    ∀ (n : Nat) (p : Tok), p.rank ≤ n →
      token_ancestor_go (some p) l =
        ((chainOf p).find? (fun a => decide (a ∈ l))).getD Tok.Token := by
  intro n
  induction n with
  | zero =>
    intro p hp
    rw [token_ancestor_go]
    by_cases hpl : p ∈ l
    · simp [chainOf, List.find?, hpl]
    · cases hpp : p.parent with
      | none =>
        simp [token_ancestor_go, chainOf, ancestorList_none hpp, hpl, List.find?]
      | some q =>
        exact absurd (Nat.lt_of_lt_of_le (Tok.parent_rank_lt hpp) hp)
          (Nat.not_lt_zero _)
  | succ n ih =>
    intro p hp
    rw [token_ancestor_go]
    by_cases hpl : p ∈ l
    · simp [chainOf, List.find?, hpl]
    · cases hpp : p.parent with
      | none =>
        simp [token_ancestor_go, chainOf, ancestorList_none hpp, hpl, List.find?]
      | some q =>
        have hq : q.rank ≤ n :=
          Nat.lt_succ_iff.mp (Nat.lt_of_lt_of_le (Tok.parent_rank_lt hpp) hp)
        rw [ih q hq]
        simp [chainOf, ancestorList_some hpp, List.find?, hpl]

/-- C8: for every category and approved list, `token_ancestor` returns the
category itself when it is in the approved list, otherwise the first
ancestor on its parent chain that is, and otherwise the generic `Token`
fallback — it is a total function, defined for every input. -/
theorem token_ancestor_first_approved (t : Tok) (l : List Tok) :
    token_ancestor t l =
      ((chainOf t).find? (fun a => decide (a ∈ l))).getD Tok.Token := by
  rw [token_ancestor]
  by_cases htl : t ∈ l
  · simp [chainOf, List.find?, htl]
  · cases hpp : t.parent with
    | none =>
      simp [token_ancestor_go, chainOf, ancestorList_none hpp, htl, List.find?]
    | some q =>
      rw [token_ancestor_go_eq l q.rank q (Nat.le_refl _)]
      simp [chainOf, ancestorList_some hpp, List.find?, htl]

/-- C6 (amended): `detect_lexer` follows the spec's precedence list, with
the amendment that a shebang first line matching neither "python" nor
"/sh"/"/bash" falls directly to the source tokenizer, skipping the
`"$ "` rule. -/
theorem detect_lexer_eq_spec (s : List Char) : detect_lexer s = detectSpec s := by
  unfold detect_lexer detectSpec
  split_ifs <;> simp_all

/-- C6 counterexample: on a ruby-shebang source containing a line starting
with `"$ "`, rules (1)–(3) of the claim do not match and rule (4) does,
so the claim requires the shell tokenizer; the code returns the source
tokenizer `py3` because the `elif` chain skips the `"$ "` test for any
shebang source. -/
theorem detect_lexer_shebang_shadows_dollar :
    List.isPrefixOf (">>> ".data) rubyShebangSource = false ∧
    isSub ("\n>>> ".data) rubyShebangSource = false ∧
    isSub ("python".data) (rubyShebangSource.takeWhile (fun c => c ≠ '\n')) = false ∧
    isSub ("/sh".data) (rubyShebangSource.takeWhile (fun c => c ≠ '\n')) = false ∧
    isSub ("/bash".data) (rubyShebangSource.takeWhile (fun c => c ≠ '\n')) = false ∧
    isSub ("\n$ ".data) rubyShebangSource = true ∧
    detect_lexer rubyShebangSource = LexName.py3 := by
  decide

/-- C3: a console-tokenized line whose first fragment's category does not
match `Generic.Prompt` compiles to exactly one `InsertRows` step carrying
the whole line — no `ReplaceRows`, `Sleep` or `CellEnd` steps. -/
theorem console_no_prompt_single_insert (lexer : LexName) (box : Box)
    (delays : Delays) (line : CodeLine) (pos : Int) (k : Nat)
    (hcon : is_lexer_console lexer = true)
    (hne : line.parts ≠ [])
    (hprompt : token_is_a (line.parts.headD ⟨.Token, []⟩).token .Prompt = false) :
    line_to_steps lexer box delays line pos k =
      [Step.InsertRows box pos [line]] := by
  have hp : token_is_a (line.parts.head?.getD ⟨.Token, []⟩).token .Prompt = false := by
    simpa [List.headD_eq_head?_getD] using hprompt
  unfold line_to_steps
  simp [hcon, hp]

theorem console_no_prompt_single_insert_witness :
    line_to_steps .con 0 (fun _ => 0) (CodeLine.make [⟨.Output, ['h']⟩] .con) 1 0 =
      [Step.InsertRows 0 1 [CodeLine.make [⟨.Output, ['h']⟩] .con]] :=
  console_no_prompt_single_insert .con 0 (fun _ => 0)
    (CodeLine.make [⟨.Output, ['h']⟩] .con) 1 0 rfl (by simp [CodeLine.make])
    (by simp [CodeLine.make, token_is_a, token_is_a_go, Tok.parent])

theorem handle_token_empty (lexer : LexName) (s : PState) (tok : Tok) :
    handle_token lexer s (tok, []) = s := by
  simp [handle_token]

theorem foldl_empty_texts (lexer : LexName) :
    ∀ (stream : List (Tok × List Char)) (s : PState),
      (∀ p ∈ stream, p.2 = ([] : List Char)) →
      stream.foldl (handle_token lexer) s = s := by
  intro stream
  induction stream with
  | nil => intro s _; rfl
  | cons p rest ih =>
    intro s h
    have hp2 : p.2 = [] := h p (by simp)
    have hs : handle_token lexer s p = s := by
      have : p = (p.1, ([] : List Char)) := by
        cases p; simp_all
      rw [this, handle_token_empty]
    rw [List.foldl_cons, hs]
    exact ih s (fun q hq => h q (by simp [hq]))

/-- C5: a stream whose texts concatenate to the empty source parses to an
empty line sequence, and compiling `Append` or `Insert` over those zero
lines yields a single step with empty content rather than an error. -/
theorem empty_source_empty_lines (stream : List (Tok × List Char))
    (lexer : LexName) (box : Box) (pos : Int)
    (h : concatTexts stream = []) :
    parse_source stream lexer = [] ∧
    append_steps box stream lexer = [Step.AddRows box []] ∧
    insert_steps box pos stream lexer = [Step.InsertRows box pos []] := by
  have hall : ∀ p ∈ stream, p.2 = ([] : List Char) := by
    intro p hp
    have := (List.flatten_eq_nil_iff).mp h
    exact this p.2 (List.mem_map_of_mem _ hp)
  have hparse : parse_source stream lexer = [] := by
    unfold parse_source
    rw [foldl_empty_texts lexer stream _ hall]
  exact ⟨hparse, by simp [append_steps, hparse], by simp [insert_steps, hparse]⟩

theorem empty_source_empty_lines_witness :
    parse_source [(Tok.Name, [])] .py3 = [] ∧
    append_steps 0 [(Tok.Name, [])] .py3 = [Step.AddRows 0 []] ∧
    insert_steps 0 1 [(Tok.Name, [])] .py3 = [Step.InsertRows 0 1 []] :=
  empty_source_empty_lines [(Tok.Name, [])] .py3 0 1 (by decide)

/-- C7: a token pair whose text is exactly the newline character flushes
the accumulated fragments as one Line — with a synthesized empty-text
fragment when the accumulator is empty, so blank source lines yield a
Line rather than being dropped — and resets the accumulator. -/
theorem newline_flushes_line (lexer : LexName) (tok : Tok) (s : PState) :
    ∃ ln, handle_token lexer s (tok, ['\n']) =
        { parts := [], lines := s.lines ++ [ln] } ∧
      ln.parts ≠ [] ∧ ln.text = partsText s.parts := by
  unfold handle_token newline_handler
  by_cases hp : s.parts.isEmpty
  · have hnil : s.parts = [] := by simpa using hp
    refine ⟨CodeLine.make [⟨tok, []⟩] lexer, by simp [hp], by simp [CodeLine.make], ?_⟩
    simp [CodeLine.make, partsText, hnil]
  · exact ⟨CodeLine.make s.parts lexer, by simp [hp],
      by simpa [CodeLine.make] using (by simpa using hp : s.parts ≠ []), rfl⟩

theorem string_handler_pres (lexer : LexName) (tok : Tok) (text : List Char)
    (P : CodeLine → Prop) (hmk : ∀ parts, P (CodeLine.make parts lexer)) :
    ∀ (s : PState), (∀ ln ∈ s.lines, P ln) →
      ∀ ln ∈ (string_handler lexer tok text s).lines, P ln := by
  unfold string_handler
  generalize splitKeepNl text = segs
  induction segs with
  | nil => intro s hs; exact hs
  | cons seg rest ih =>
    intro s hs
    rw [List.foldl_cons]
    apply ih
    by_cases h : seg.getLast? = some '\n'
    · simp only [h, if_pos rfl]
      intro ln hln
      rcases List.mem_append.mp hln with hln | hln
      · exact hs ln hln
      · rw [List.mem_singleton.mp hln]; exact hmk _
    · simp only [if_neg h]
      exact hs

theorem handle_token_pres (lexer : LexName) (s : PState) (p : Tok × List Char)
    (P : CodeLine → Prop) (hmk : ∀ parts, P (CodeLine.make parts lexer))
    (hs : ∀ ln ∈ s.lines, P ln) :
    ∀ ln ∈ (handle_token lexer s p).lines, P ln := by
  unfold handle_token
  split_ifs with h1 h2 h3
  · unfold newline_handler
    intro ln hln
    rcases List.mem_append.mp hln with hln | hln
    · exact hs ln hln
    · rw [List.mem_singleton.mp hln]; exact hmk _
  · exact hs
  · exact string_handler_pres lexer p.1 p.2 P hmk s hs
  · unfold default_handler
    split_ifs with h4
    · intro ln hln
      rcases List.mem_append.mp hln with hln | hln
      · exact hs ln hln
      · rw [List.mem_singleton.mp hln]; exact hmk _
    · exact hs

theorem parse_pres (lexer : LexName) (P : CodeLine → Prop)
    (hmk : ∀ parts, P (CodeLine.make parts lexer)) :
    ∀ (stream : List (Tok × List Char)) (s : PState),
      (∀ ln ∈ s.lines, P ln) →
      ∀ ln ∈ (stream.foldl (handle_token lexer) s).lines, P ln := by
  intro stream
  induction stream with
  | nil => intro s hs; exact hs
  | cons p rest ih =>
    intro s hs
    rw [List.foldl_cons]
    exact ih _ (handle_token_pres lexer s p P hmk hs)

/-- C9: every `CodeLine` produced by the parser satisfies the invariant
that its stored `text` equals the concatenation of its fragments' texts;
in the pure embedding the fragments list is a value, so no later change
by the caller can break the invariant. -/
theorem parse_line_text_invariant (stream : List (Tok × List Char))
    (lexer : LexName) (ln : CodeLine)
    (h : ln ∈ parse_source stream lexer) :
    ln.text = partsText ln.parts :=
  parse_pres lexer (fun l => l.text = partsText l.parts) (fun _ => rfl)
    stream { parts := [], lines := [] } (by simp) ln h

theorem parse_line_text_invariant_witness :
    (CodeLine.make [⟨Tok.Name, ['x']⟩] .py3).text =
      partsText (CodeLine.make [⟨Tok.Name, ['x']⟩] .py3).parts :=
  parse_line_text_invariant [(Tok.Name, ['x']), (Tok.Text, ['\n'])] .py3 _
    (by simp [parse_source, handle_token, token_is_a, token_is_a_go, Tok.parent,
      newline_handler, default_handler, CodeLine.make])

theorem revealSteps_eq (lexer : LexName) (box : Box) (pos : Int)
    (delays : Delays) (tok : Tok) (last : Bool) (base : List CodePart) :
    ∀ (txt tw : List Char) (k : Nat),
      revealSteps lexer box pos delays tok last base tw txt k =
        ((List.range txt.length).map (fun i =>
            [Step.ReplaceRows box pos
                [CodeLine.make (base ++ [⟨tok, tw ++ txt.take (i + 1)⟩] ++
                  (if last ∧ i + 1 = txt.length then []
                   else [⟨.Token, [cursorGlyph]⟩])) lexer],
              Step.Sleep (delays (k + i))])).flatten := by
  intro txt
  induction txt with
  | nil => intro tw k; simp [revealSteps]
  | cons c rest ih =>
    intro tw k
    rw [revealSteps, ih (tw ++ [c]) (k + 1)]
    simp only [List.length_cons]
    rw [List.range_succ_eq_map]
    simp only [List.map_cons, List.map_map, List.flatten_cons, List.cons_append,
      List.nil_append]
    congr 1
    · by_cases hl : (last = true) ∧ rest = []
      · have h2 : (last = true) ∧ 0 + 1 = rest.length + 1 := by
          simpa [List.length_eq_zero] using hl
        simp [hl, h2]
      · have h2 : ¬((last = true) ∧ 0 + 1 = rest.length + 1) := by
          simpa [eq_comm, List.length_eq_zero] using hl
        simp [hl, h2]
    · congr 1
      congr 1
      apply List.map_congr_left
      intro i _
      simp [Function.comp, List.take_succ_cons, List.append_assoc,
        Nat.succ_eq_add_one, Nat.add_assoc, Nat.add_comm 1 i]

theorem pairs_filter_replace (box : Box) (pos : Int) (f : Nat → CodeLine)
    (g : Nat → Int) :
    ∀ l : List Nat,
      (((l.map (fun i => [Step.ReplaceRows box pos [f i],
          Step.Sleep (g i)])).flatten).filter isReplace).length = l.length := by
  intro l
  induction l with
  | nil => rfl
  | cons i t ih =>
    simp only [List.map_cons, List.flatten_cons, List.cons_append,
      List.nil_append]
    rw [List.filter_cons_of_pos (by simp [isReplace]),
      List.filter_cons_of_neg (by simp [isReplace])]
    simp only [List.length_cons, ih]

theorem pairs_filter_sleep (box : Box) (pos : Int) (f : Nat → CodeLine)
    (g : Nat → Int) :
    ∀ l : List Nat,
      (((l.map (fun i => [Step.ReplaceRows box pos [f i],
          Step.Sleep (g i)])).flatten).filter isSleep).length = l.length := by
  intro l
  induction l with
  | nil => rfl
  | cons i t ih =>
    simp only [List.map_cons, List.flatten_cons, List.cons_append,
      List.nil_append]
    rw [List.filter_cons_of_neg (by simp [isSleep]),
      List.filter_cons_of_pos (by simp [isSleep])]
    simp only [List.length_cons, ih]

theorem pairs_rfs (box : Box) (pos : Int) (f : Nat → CodeLine) (g : Nat → Int) :
    ∀ l : List Nat,
      replaceFollowedBySleep ((l.map (fun i => [Step.ReplaceRows box pos [f i],
        Step.Sleep (g i)])).flatten) := by
  intro l
  induction l with
  | nil => intro j hj _; simp at hj
  | cons i t ih =>
    intro j hj hrep
    simp only [List.map_cons, List.flatten_cons, List.cons_append,
      List.nil_append] at hj hrep ⊢
    match j with
    | 0 => simp [isSleep]
    | 1 => exact absurd hrep (by simp [isReplace])
    | (m + 2) =>
      have hm : m < ((t.map (fun i => [Step.ReplaceRows box pos [f i],
          Step.Sleep (g i)])).flatten).length := by
        simp only [List.length_cons] at hj
        omega
      have := ih m hm (by simpa [List.getD_cons_succ] using hrep)
      simpa [List.getD_cons_succ] using this

theorem pairs_replacedLines (box : Box) (pos : Int) (f : Nat → CodeLine)
    (g : Nat → Int) :
    ∀ l : List Nat,
      replacedLines ((l.map (fun i => [Step.ReplaceRows box pos [f i],
        Step.Sleep (g i)])).flatten) = l.map f := by
  intro l
  induction l with
  | nil => rfl
  | cons i t ih => simp [replacedLines, ih]

theorem rfs_cons {x : Step} {ss : List Step} (hx : isReplace x = false)
    (h : replaceFollowedBySleep ss) : replaceFollowedBySleep (x :: ss) := by
  intro j hj hrep
  match j with
  | 0 => rw [List.getD_cons_zero, hx] at hrep; cases hrep
  | (m + 1) =>
    have hm : m < ss.length := by simpa using hj
    have := h m hm (by simpa [List.getD_cons_succ] using hrep)
    simpa [List.getD_cons_succ] using this

theorem line_to_steps_single (lexer : LexName) (box : Box) (delays : Delays)
    (tok : Tok) (txt : List Char) (line : CodeLine) (pos : Int) (k : Nat)
    (hcon : is_lexer_console lexer = false)
    (hnc : tok ∉ continuous)
    (hparts : line.parts = [⟨tok, txt⟩]) :
    line_to_steps lexer box delays line pos k =
      Step.InsertRows box pos [CodeLine.make [⟨.Token, []⟩] lexer] ::
        ((List.range txt.length).map (fun i =>
          [Step.ReplaceRows box pos [CodeLine.make (revealParts tok txt i) lexer],
           Step.Sleep (delays (k + i))])).flatten := by
  unfold line_to_steps
  rw [hparts]
  simp only [hcon, Bool.false_eq_true, false_and, if_neg (fun h => h)]
  rw [twParts]
  simp only [if_neg hnc]
  rw [revealSteps_eq]
  simp [twParts, revealParts]

/-- C2: typewriter compilation of a line holding one non-continuous
fragment of N characters under a non-console tokenizer produces exactly N
`ReplaceRows` steps and N `Sleep` steps, every `ReplaceRows` immediately
followed by a `Sleep`, and the payload of the i-th `ReplaceRows` carries
the revealed prefix with the cursor glyph part appended in every payload
except the one revealing the final character. -/
theorem typewriter_reveal_structure (lexer : LexName) (box : Box)
    (delays : Delays) (tok : Tok) (txt : List Char) (line : CodeLine)
    (pos : Int) (k : Nat)
    (hcon : is_lexer_console lexer = false)
    (hnc : tok ∉ continuous)
    (hparts : line.parts = [⟨tok, txt⟩]) :
    ((line_to_steps lexer box delays line pos k).filter isReplace).length =
      txt.length ∧
    ((line_to_steps lexer box delays line pos k).filter isSleep).length =
      txt.length ∧
    replaceFollowedBySleep (line_to_steps lexer box delays line pos k) ∧
    (replacedLines (line_to_steps lexer box delays line pos k)).map
        CodeLine.parts =
      (List.range txt.length).map (revealParts tok txt) := by
  rw [line_to_steps_single lexer box delays tok txt line pos k hcon hnc hparts]
  refine ⟨?_, ?_, ?_, ?_⟩
  · rw [List.filter_cons_of_neg (by simp [isReplace])]
    rw [pairs_filter_replace box pos _ _ (List.range txt.length)]
    exact List.length_range _
  · rw [List.filter_cons_of_neg (by simp [isSleep])]
    rw [pairs_filter_sleep box pos _ _ (List.range txt.length)]
    exact List.length_range _
  · exact rfs_cons (by simp [isReplace]) (pairs_rfs box pos _ _ _)
  · show (replacedLines _).map CodeLine.parts = _
    rw [show replacedLines (Step.InsertRows box pos
          [CodeLine.make [⟨.Token, []⟩] lexer] ::
          ((List.range txt.length).map (fun i =>
            [Step.ReplaceRows box pos
                [CodeLine.make (revealParts tok txt i) lexer],
              Step.Sleep (delays (k + i))])).flatten) =
        replacedLines (((List.range txt.length).map (fun i =>
          [Step.ReplaceRows box pos
              [CodeLine.make (revealParts tok txt i) lexer],
            Step.Sleep (delays (k + i))])).flatten) from rfl]
    rw [pairs_replacedLines box pos _ _ (List.range txt.length)]
    simp [CodeLine.make, List.map_map, Function.comp]

theorem typewriter_reveal_structure_witness :
    ((line_to_steps .py3 0 (fun _ => 0)
        (CodeLine.make [⟨Tok.Name, ['a', 'b']⟩] .py3) 1 0).filter
      isReplace).length = (['a', 'b'] : List Char).length ∧
    ((line_to_steps .py3 0 (fun _ => 0)
        (CodeLine.make [⟨Tok.Name, ['a', 'b']⟩] .py3) 1 0).filter
      isSleep).length = (['a', 'b'] : List Char).length ∧
    replaceFollowedBySleep (line_to_steps .py3 0 (fun _ => 0)
      (CodeLine.make [⟨Tok.Name, ['a', 'b']⟩] .py3) 1 0) ∧
    (replacedLines (line_to_steps .py3 0 (fun _ => 0)
        (CodeLine.make [⟨Tok.Name, ['a', 'b']⟩] .py3) 1 0)).map
        CodeLine.parts =
      (List.range (['a', 'b'] : List Char).length).map
        (revealParts Tok.Name ['a', 'b']) :=
  typewriter_reveal_structure .py3 0 (fun _ => 0) Tok.Name ['a', 'b']
    (CodeLine.make [⟨Tok.Name, ['a', 'b']⟩] .py3) 1 0 rfl (by decide) rfl
theorem insertPositions_append (a b : List Step) :
    insertPositions (a ++ b) = insertPositions a ++ insertPositions b := by
  simp [insertPositions, List.filterMap_append]

theorem insertPositions_cons_replace (box : Box) (pos : Int)
    (ls : List CodeLine) (ss : List Step) :
    insertPositions (Step.ReplaceRows box pos ls :: ss) = insertPositions ss := by
  simp [insertPositions, List.filterMap_cons]

theorem insertPositions_cons_cellEnd (ss : List Step) :
    insertPositions (Step.CellEnd :: ss) = insertPositions ss := by
  simp [insertPositions, List.filterMap_cons]

theorem insertPositions_cons_sleep (d : Int) (ss : List Step) :
    insertPositions (Step.Sleep d :: ss) = insertPositions ss := by
  simp [insertPositions, List.filterMap_cons]

theorem insertPositions_cons_insert (box : Box) (pos : Int)
    (ls : List CodeLine) (ss : List Step) :
    insertPositions (Step.InsertRows box pos ls :: ss) =
      pos :: insertPositions ss := by
  simp [insertPositions, List.filterMap_cons]

theorem insertPositions_revealSteps (lexer : LexName) (box : Box) (pos : Int)
    (delays : Delays) (tok : Tok) (last : Bool) (base : List CodePart) :
    ∀ (txt tw : List Char) (k : Nat),
      insertPositions (revealSteps lexer box pos delays tok last base tw txt k) =
        [] := by
  intro txt
  induction txt with
  | nil => intro tw k; rfl
  | cons c rest ih =>
    intro tw k
    rw [revealSteps]
    rw [insertPositions_cons_replace, insertPositions_cons_sleep]
    exact ih (tw ++ [c]) (k + 1)

theorem insertPositions_twParts (lexer : LexName) (box : Box) (pos : Int)
    (delays : Delays) :
    ∀ (parts cur : List CodePart) (k : Nat),
      insertPositions (twParts lexer box pos delays parts cur k) = [] := by
  intro parts
  induction parts with
  | nil => intro cur k; rfl
  | cons p rest ih =>
    intro cur k
    simp only [twParts]
    by_cases hc : p.token ∈ continuous
    · rw [if_pos hc]
      by_cases hp : p.token = Tok.Prompt
      · rw [if_pos hp]
        simp only [List.cons_append, List.nil_append]
        rw [insertPositions_cons_replace, insertPositions_cons_cellEnd]
        exact ih _ k
      · rw [if_neg hp]
        simp only [List.cons_append, List.nil_append]
        rw [insertPositions_cons_replace]
        exact ih _ k
    · rw [if_neg hc, insertPositions_append, insertPositions_revealSteps,
        ih _ _]
      rfl

theorem insertPositions_line_to_steps (lexer : LexName) (box : Box)
    (delays : Delays) (line : CodeLine) (pos : Int) (k : Nat) :
    insertPositions (line_to_steps lexer box delays line pos k) = [pos] := by
  simp only [line_to_steps]
  split_ifs with h
  · rfl
  · rw [insertPositions_cons_insert, insertPositions_twParts]

theorem insertPositions_twLines (lexer : LexName) (box : Box)
    (delays : Delays) :
    ∀ (ls : List CodeLine) (pos : Int) (k : Nat),
      insertPositions (twLines lexer box delays ls pos k) =
        (List.range ls.length).map (fun n : Nat => pos + (n : Int)) := by
  intro ls
  induction ls with
  | nil => intro pos k; rfl
  | cons l t ih =>
    intro pos k
    simp only [twLines]
    rw [insertPositions_append, insertPositions_line_to_steps, ih]
    simp only [List.length_cons]
    rw [List.range_succ_eq_map]
    simp only [List.map_cons, List.map_map, List.cons_append, List.nil_append]
    congr 1
    · simp
    · apply List.map_congr_left
      intro i _
      simp only [Function.comp, Nat.succ_eq_add_one]
      push_cast
      ring

/-- C10: `AppendTypewriter` always compiles from the hard-coded starting
position 1: the `InsertRows` steps of its output carry positions
1, 2, …, N for the N parsed lines, independent of any display state —
unlike the non-typewriter `Append`, whose single step is an `AddRows`
appending to the end. -/
theorem append_typewriter_hardcoded_position (lexer : LexName) (box : Box)
    (delays : Delays) (stream : List (Tok × List Char)) :
    insertPositions (append_typewriter_steps lexer box delays stream) =
      (List.range (parse_source stream lexer).length).map
        (fun n : Nat => (1 : Int) + (n : Int)) ∧
    append_steps box stream lexer =
      [Step.AddRows box (parse_source stream lexer)] := by
  constructor
  · unfold append_typewriter_steps typewriter_steps
    exact insertPositions_twLines lexer box delays (parse_source stream lexer) 1 0
  · rfl

theorem splitKeepNl_flatten : ∀ t : List Char, (splitKeepNl t).flatten = t := by
  intro t
  induction t with
  | nil => rfl
  | cons c rest ih =>
    by_cases h : c = '\n'
    · simp [splitKeepNl, h, ih]
    · rw [splitKeepNl, if_neg h]
      cases hs : splitKeepNl rest with
      | nil =>
        rw [hs] at ih
        simp at ih
        simp [ih]
      | cons seg segs =>
        rw [hs] at ih
        simp at ih ⊢
        exact ih

theorem splitKeepNl_seg_ne_nil :
    ∀ (t : List Char), ∀ seg ∈ splitKeepNl t, seg ≠ [] := by
  intro t
  induction t with
  | nil => intro seg h; simp [splitKeepNl] at h
  | cons c rest ih =>
    intro seg h
    by_cases hc : c = '\n'
    · rw [splitKeepNl, if_pos hc] at h
      rcases List.mem_cons.mp h with rfl | h
      · simp
      · exact ih seg h
    · rw [splitKeepNl, if_neg hc] at h
      cases hs : splitKeepNl rest with
      | nil => rw [hs] at h; simp at h; simp [h]
      | cons s ss =>
        rw [hs] at h
        rcases List.mem_cons.mp h with rfl | h
        · simp
        · exact ih seg (hs ▸ List.mem_cons_of_mem s h)

theorem splitKeepNl_seg_ok :
    ∀ (t : List Char), ∀ seg ∈ splitKeepNl t, '\n' ∉ seg.dropLast := by
  intro t
  induction t with
  | nil => intro seg h; simp [splitKeepNl] at h
  | cons c rest ih =>
    intro seg h
    by_cases hc : c = '\n'
    · rw [splitKeepNl, if_pos hc] at h
      rcases List.mem_cons.mp h with rfl | h
      · simp
      · exact ih seg h
    · rw [splitKeepNl, if_neg hc] at h
      cases hs : splitKeepNl rest with
      | nil =>
        rw [hs] at h
        simp at h
        simp [h]
      | cons s ss =>
        rw [hs] at h
        rcases List.mem_cons.mp h with rfl | h
        · have hsne : s ≠ [] := splitKeepNl_seg_ne_nil rest s (hs ▸ List.mem_cons_self s ss)
          have hsok : '\n' ∉ s.dropLast := ih s (hs ▸ List.mem_cons_self s ss)
          rw [List.dropLast_cons_of_ne_nil hsne]
          intro hmem
          rcases List.mem_cons.mp hmem with h1 | h2
          · exact hc h1.symm
          · exact hsok h2
        · exact ih seg (hs ▸ List.mem_cons_of_mem s h)

theorem dropWhile_nl_eq_self {l : List Char} (h : '\n' ∉ l) :
    l.dropWhile (fun c => c = '\n') = l := by
  cases l with
  | nil => rfl
  | cons c t =>
    have hc : ¬(c = '\n') := fun hc => h (hc ▸ List.mem_cons_self c t)
    simp [List.dropWhile_cons, hc]

theorem rstripNl_concat_nl {l : List Char} (h : '\n' ∉ l) :
    rstripNl (l ++ ['\n']) = l := by
  unfold rstripNl
  rw [List.reverse_append]
  simp only [List.reverse_cons, List.reverse_nil, List.nil_append,
    List.singleton_append]
  rw [List.dropWhile_cons]
  simp only [decide_True, if_true]
  rw [dropWhile_nl_eq_self (by simpa using h), List.reverse_reverse]

theorem rstripNl_no_trailing {l : List Char} (h : l.getLast? ≠ some '\n') :
    rstripNl l = l := by
  induction l using List.reverseRecOn with
  | nil => rfl
  | append_singleton t a _ =>
    have ha : ¬(a = '\n') := fun hc => h (by simp [hc])
    unfold rstripNl
    rw [List.reverse_append]
    simp only [List.reverse_cons, List.reverse_nil, List.nil_append,
      List.singleton_append]
    rw [List.dropWhile_cons, if_neg (by simp [ha])]
    simp [List.reverse_cons, List.reverse_reverse]

theorem eq_dropLast_concat {seg : List Char} {a : Char}
    (h : seg.getLast? = some a) : seg = seg.dropLast ++ [a] :=
  (List.dropLast_append_getLast? a (by simpa using h)).symm

theorem no_nl_of_ok {t : List Char} (hok : '\n' ∉ t.dropLast)
    (hl : t.getLast? ≠ some '\n') : '\n' ∉ t := by
  cases ht : t.getLast? with
  | none =>
    have : t = [] := by simpa using ht
    simp [this]
  | some a =>
    have ha : ¬(a = '\n') := fun hc => hl (hc ▸ ht)
    rw [eq_dropLast_concat ht]
    intro hmem
    rcases List.mem_append.mp hmem with h1 | h1
    · exact hok h1
    · exact ha (List.mem_singleton.mp h1).symm

theorem linesRendered_append (a b : List CodeLine) :
    linesRendered (a ++ b) = linesRendered a ++ linesRendered b := by
  simp [linesRendered]

theorem partsText_append (a b : List CodePart) :
    partsText (a ++ b) = partsText a ++ partsText b := by
  simp [partsText]

theorem inv_push_flush (lexer : LexName) (tok : Tok) (x : List Char)
    (s : PState) (pc : List Char)
    (hok : '\n' ∉ x.dropLast) (hl : x.getLast? = some '\n')
    (h : ParserInv pc s) :
    ParserInv (pc ++ x)
      { parts := [],
        lines := s.lines ++ [CodeLine.make (s.parts ++ [⟨tok, rstripNl x⟩]) lexer] } := by
  obtain ⟨h1, h2, h3⟩ := h
  have hrs : rstripNl x = x.dropLast := by
    conv_lhs => rw [eq_dropLast_concat hl]
    exact rstripNl_concat_nl hok
  refine ⟨?_, ?_, ?_⟩
  · rw [linesRendered_append]
    simp only [linesRendered, List.map_cons, List.map_nil, List.flatten_cons,
      List.flatten_nil, List.append_nil, CodeLine.make, partsText_append]
    rw [hrs]
    simp only [partsText, List.map_cons, List.map_nil, List.flatten_cons,
      List.flatten_nil, List.append_nil, List.flatten_nil]
    conv_rhs => rw [eq_dropLast_concat hl]
    rw [← h1]
    simp [List.append_assoc, partsText, linesRendered]
  · intro ln hln
    rcases List.mem_append.mp hln with hln | hln
    · exact h2 ln hln
    · rw [List.mem_singleton.mp hln]
      show ('\n' : Char) ∉ partsText (s.parts ++ [⟨tok, rstripNl x⟩])
      rw [partsText_append, hrs]
      intro hmem
      rcases List.mem_append.mp hmem with hm | hm
      · exact h3 hm
      · exact hok (by simpa [partsText] using hm)
  · simp [partsText]

theorem inv_push_accum (tok : Tok) (x : List Char) (s : PState) (pc : List Char)
    (hnl : '\n' ∉ x) (h : ParserInv pc s) :
    ParserInv (pc ++ x) { s with parts := s.parts ++ [⟨tok, x⟩] } := by
  obtain ⟨h1, h2, h3⟩ := h
  refine ⟨?_, h2, ?_⟩
  · show linesRendered s.lines ++ partsText (s.parts ++ [⟨tok, x⟩]) = pc ++ x
    rw [partsText_append, ← h1]
    simp [List.append_assoc, partsText]
  · show ('\n' : Char) ∉ partsText (s.parts ++ [⟨tok, x⟩])
    rw [partsText_append]
    intro hmem
    rcases List.mem_append.mp hmem with hm | hm
    · exact h3 hm
    · exact hnl (by simpa [partsText] using hm)

theorem inv_newline (lexer : LexName) (tok : Tok) (s : PState) (pc : List Char)
    (h : ParserInv pc s) :
    ParserInv (pc ++ ['\n']) (newline_handler lexer tok s) := by
  obtain ⟨h1, h2, h3⟩ := h
  unfold newline_handler
  have hpt : partsText (if s.parts.isEmpty then [(⟨tok, []⟩ : CodePart)] else s.parts) =
      partsText s.parts := by
    by_cases hp : s.parts.isEmpty
    · have hnil : s.parts = [] := by simpa using hp
      simp [hp, hnil, partsText]
    · simp [hp]
  refine ⟨?_, ?_, ?_⟩
  · rw [linesRendered_append]
    simp only [linesRendered, List.map_cons, List.map_nil, List.flatten_cons,
      List.flatten_nil, List.append_nil, CodeLine.make]
    rw [hpt, ← h1]
    simp [List.append_assoc, partsText, linesRendered]
  · intro ln hln
    rcases List.mem_append.mp hln with hln | hln
    · exact h2 ln hln
    · rw [List.mem_singleton.mp hln]
      show ('\n' : Char) ∉ partsText (if s.parts.isEmpty then [(⟨tok, []⟩ : CodePart)] else s.parts)
      rw [hpt]
      exact h3
  · simp [partsText]

theorem inv_default (lexer : LexName) (tok : Tok) (text : List Char)
    (s : PState) (pc : List Char)
    (hok : '\n' ∉ text.dropLast) (hne : text ≠ [])
    (h : ParserInv pc s) :
    ParserInv (pc ++ text) (default_handler lexer tok text s) := by
  unfold default_handler
  by_cases hl : text.getLast? = some '\n'
  · rw [if_pos hl]
    exact inv_push_flush lexer tok text s pc hok hl h
  · rw [if_neg hl]
    exact inv_push_accum tok text s pc (no_nl_of_ok hok hl) h

theorem inv_string_segs (lexer : LexName) (tok : Tok) :
    ∀ (segs : List (List Char)) (s : PState) (pc : List Char),
      (∀ seg ∈ segs, seg ≠ [] ∧ '\n' ∉ seg.dropLast) →
      ParserInv pc s →
      ParserInv (pc ++ segs.flatten)
        (segs.foldl (fun st seg =>
          let parts := st.parts ++ [(⟨tok, rstripNl seg⟩ : CodePart)]
          if seg.getLast? = some '\n' then
            { parts := [], lines := st.lines ++ [CodeLine.make parts lexer] }
          else { st with parts := parts }) s) := by
  intro segs
  induction segs with
  | nil => intro s pc _ h; simpa using h
  | cons seg rest ih =>
    intro s pc hseg h
    rw [List.foldl_cons]
    have hcur := hseg seg (by simp)
    have hstep : ParserInv (pc ++ seg)
        ((fun st seg =>
          let parts := st.parts ++ [(⟨tok, rstripNl seg⟩ : CodePart)]
          if seg.getLast? = some '\n' then
            ({ parts := [], lines := st.lines ++ [CodeLine.make parts lexer] } : PState)
          else { st with parts := parts }) s seg) := by
      by_cases hl : seg.getLast? = some '\n'
      · simp only [if_pos hl]
        exact inv_push_flush lexer tok seg s pc hcur.2 hl h
      · simp only [if_neg hl]
        have hnl : '\n' ∉ seg := no_nl_of_ok hcur.2 hl
        have hrs : rstripNl seg = seg := rstripNl_no_trailing hl
        rw [hrs]
        exact inv_push_accum tok seg s pc hnl h
    have := ih _ (pc ++ seg) (fun q hq => hseg q (by simp [hq])) hstep
    simpa [List.append_assoc] using this

theorem inv_handle (lexer : LexName) (s : PState) (p : Tok × List Char)
    (pc : List Char) (hwf : wellFormedTok p) (h : ParserInv pc s) :
    ParserInv (pc ++ p.2) (handle_token lexer s p) := by
  obtain ⟨tok, text⟩ := p
  simp only [handle_token]
  by_cases h1 : text = ['\n']
  · rw [if_pos h1]
    subst h1
    exact inv_newline lexer tok s pc h
  · rw [if_neg h1]
    by_cases h2 : text = []
    · rw [if_pos h2]
      subst h2
      simpa using h
    · rw [if_neg h2]
      by_cases h3 : (token_is_a tok .Str = true) ∧ '\n' ∈ text
      · rw [if_pos h3]
        show ParserInv (pc ++ text) (string_handler lexer tok text s)
        unfold string_handler
        have hsegs : ∀ seg ∈ splitKeepNl text, seg ≠ [] ∧ '\n' ∉ seg.dropLast :=
          fun seg hseg => ⟨splitKeepNl_seg_ne_nil text seg hseg,
            splitKeepNl_seg_ok text seg hseg⟩
        have := inv_string_segs lexer tok (splitKeepNl text) s pc hsegs h
        rwa [splitKeepNl_flatten] at this
      · rw [if_neg h3]
        have hok : '\n' ∉ text.dropLast := by
          rcases hwf with hstr | hok
          · have hnl : '\n' ∉ text := fun hmem => h3 ⟨hstr, hmem⟩
            exact fun hmem => hnl (List.mem_of_mem_dropLast hmem)
          · exact hok
        exact inv_default lexer tok text s pc hok h2 h

theorem inv_fold (lexer : LexName) :
    ∀ (stream : List (Tok × List Char)) (s : PState) (pc : List Char),
      (∀ p ∈ stream, wellFormedTok p) → ParserInv pc s →
      ParserInv (pc ++ concatTexts stream)
        (stream.foldl (handle_token lexer) s) := by
  intro stream
  induction stream with
  | nil => intro s pc _ h; simpa [concatTexts] using h
  | cons p rest ih =>
    intro s pc hwf h
    rw [List.foldl_cons]
    have h1 := inv_handle lexer s p pc (hwf p (by simp)) h
    have h2 := ih (handle_token lexer s p) (pc ++ p.2)
      (fun q hq => hwf q (by simp [hq])) h1
    simpa [concatTexts, List.append_assoc] using h2

theorem ensureNl_getLast (S : List Char) : (ensureNl S).getLast? = some '\n' := by
  unfold ensureNl
  by_cases h : S.getLast? = some '\n'
  · rw [if_pos h]; exact h
  · rw [if_neg h]
    simp

theorem removeTrailingNl_ensureNl (S : List Char) :
    removeTrailingNl (ensureNl S) = removeTrailingNl S := by
  unfold ensureNl removeTrailingNl
  by_cases h : S.getLast? = some '\n'
  · simp [h]
  · rw [if_neg h, if_neg h, if_pos (by simp), List.dropLast_concat]

theorem removeTrailingNl_append (a : List Char) {b : List Char} (hb : b ≠ []) :
    removeTrailingNl (a ++ b) = a ++ removeTrailingNl b := by
  unfold removeTrailingNl
  rw [List.getLast?_append_of_ne_nil a hb]
  by_cases h : b.getLast? = some '\n'
  · rw [if_pos h, if_pos h, List.dropLast_append_of_ne_nil a hb]
  · rw [if_neg h, if_neg h]

theorem joinWithNl_of_rendered : ∀ ls : List CodeLine,
    removeTrailingNl (linesRendered ls) = joinWithNl (ls.map CodeLine.text) := by
  intro ls
  induction ls with
  | nil => simp [removeTrailingNl, joinWithNl, linesRendered]
  | cons l t ih =>
    cases t with
    | nil =>
      simp only [linesRendered, List.map_cons, List.map_nil, List.flatten_cons,
        List.flatten_nil, List.append_nil, joinWithNl]
      unfold removeTrailingNl
      rw [if_pos (by simp), List.dropLast_concat]
    | cons l2 t2 =>
      have hne : linesRendered (l2 :: t2) ≠ [] := by simp [linesRendered]
      rw [show linesRendered (l :: l2 :: t2) =
          (l.text ++ ['\n']) ++ linesRendered (l2 :: t2) from by simp [linesRendered],
        removeTrailingNl_append _ hne, ih]
      simp [joinWithNl, List.append_assoc]

/-- C1 (amended): for a tokenizer stream whose texts concatenate to the
source with a trailing newline ensured, and whose non-string-category
texts carry a newline only as a single final character, joining the
parsed Lines' texts with newlines reconstructs the source up to a single
optional trailing newline, and no Line spans more than one logical source
line (no newline survives inside any Line's text). -/
theorem parse_roundtrip (stream : List (Tok × List Char)) (lexer : LexName)
    (S : List Char)
    (hwf : ∀ p ∈ stream, wellFormedTok p)
    (hcat : concatTexts stream = ensureNl S) :
    joinWithNl ((parse_source stream lexer).map CodeLine.text) =
      removeTrailingNl S ∧
    ∀ ln ∈ parse_source stream lexer, '\n' ∉ ln.text := by
  have hinv := inv_fold lexer stream { parts := [], lines := [] } [] hwf
    ⟨by simp [linesRendered, partsText], by simp, by simp [partsText]⟩
  rw [List.nil_append, hcat] at hinv
  obtain ⟨h1, h2, h3⟩ := hinv
  have hptnil :
      partsText (stream.foldl (handle_token lexer) { parts := [], lines := [] }).parts = [] := by
    by_contra hne
    have hlast := List.getLast?_append_of_ne_nil
      (linesRendered (stream.foldl (handle_token lexer) { parts := [], lines := [] }).lines)
      hne
    rw [h1, ensureNl_getLast] at hlast
    have hmem : ('\n' : Char) ∈
        partsText (stream.foldl (handle_token lexer) { parts := [], lines := [] }).parts := by
      rw [eq_dropLast_concat hlast.symm]
      simp
    exact h3 hmem
  have hrend :
      linesRendered (stream.foldl (handle_token lexer) { parts := [], lines := [] }).lines =
        ensureNl S := by
    rw [← h1, hptnil, List.append_nil]
  constructor
  · have hjoin := joinWithNl_of_rendered
      (stream.foldl (handle_token lexer) { parts := [], lines := [] }).lines
    rw [hrend, removeTrailingNl_ensureNl] at hjoin
    exact hjoin.symm
  · exact h2

theorem parse_roundtrip_witness :
    joinWithNl ((parse_source [(Tok.Name, ['a']), (Tok.Text, ['\n']),
        (Tok.Name, ['b']), (Tok.Text, ['\n'])] .py3).map CodeLine.text) =
      removeTrailingNl ['a', '\n', 'b'] :=
  (parse_roundtrip [(Tok.Name, ['a']), (Tok.Text, ['\n']), (Tok.Name, ['b']),
      (Tok.Text, ['\n'])] .py3 ['a', '\n', 'b']
    (by
      intro p hp
      simp only [List.mem_cons, List.not_mem_nil, or_false] at hp
      rcases hp with rfl | rfl | rfl | rfl
      all_goals exact Or.inr (by decide))
    (by decide)).1

/-- C1 counterexample: a tokenizer whose pairs concatenate exactly back to
the source `"a"` (no trailing newline) loses the final line entirely —
the parser only flushes on newlines, so the claim's reconstruction
guarantee fails for a merely-concatenating tokenizer. -/
theorem parse_roundtrip_counterexample :
    concatTexts [(Tok.Name, ['a'])] = ['a'] ∧
    parse_source [(Tok.Name, ['a'])] .py3 = [] ∧
    joinWithNl ((parse_source [(Tok.Name, ['a'])] .py3).map CodeLine.text) ≠
      removeTrailingNl ['a'] := by
  refine ⟨rfl, ?_, ?_⟩
  · simp [parse_source, handle_token, token_is_a, token_is_a_go, Tok.parent,
      default_handler]
  · rw [show parse_source [(Tok.Name, ['a'])] .py3 = [] from by
      simp [parse_source, handle_token, token_is_a, token_is_a_go, Tok.parent,
        default_handler]]
    simp [joinWithNl, removeTrailingNl]

theorem splitKeepNl_append_nl (a r : List Char) (ha : '\n' ∉ a) :
    splitKeepNl (a ++ '\n' :: r) = (a ++ ['\n']) :: splitKeepNl r := by
  induction a with
  | nil => simp [splitKeepNl]
  | cons x xs ih =>
    have hx : ¬(x = '\n') := fun hh => ha (by simp [hh])
    have hxs : '\n' ∉ xs := fun hm => ha (List.mem_cons_of_mem _ hm)
    rw [List.cons_append, splitKeepNl, if_neg hx, ih hxs]
    simp

theorem splitKeepNl_no_nl :
    ∀ (c : List Char), '\n' ∉ c → c ≠ [] → splitKeepNl c = [c] := by
  intro c
  induction c with
  | nil => intro _ hne; cases hne rfl
  | cons x xs ih =>
    intro hc _
    have hx : ¬(x = '\n') := fun hh => hc (by simp [hh])
    have hxs : '\n' ∉ xs := fun hm => hc (List.mem_cons_of_mem _ hm)
    rw [splitKeepNl, if_neg hx]
    by_cases hxe : xs = []
    · subst hxe
      simp [splitKeepNl]
    · rw [ih hxs hxe]

theorem handle_token_accum (lexer : LexName) (s : PState) (tok : Tok)
    {t : List Char} (hnl : '\n' ∉ t) :
    handle_token lexer s (tok, t) =
      { s with parts := s.parts ++
          (if t = [] then [] else [(⟨tok, t⟩ : CodePart)]) } := by
  by_cases hte : t = []
  · subst hte
    simp [handle_token]
  · have h1 : t ≠ ['\n'] := fun hh => hnl (hh ▸ by simp)
    have hgl : t.getLast? ≠ some '\n' := fun hh => hnl (by
      rw [eq_dropLast_concat hh]
      simp)
    simp only [handle_token]
    rw [if_neg h1, if_neg hte, if_neg (fun hh => hnl hh.2)]
    unfold default_handler
    rw [if_neg hgl, if_neg hte]

theorem handle_token_string (lexer : LexName) (s : PState) (tok : Tok)
    {t : List Char} (hst : token_is_a tok .Str = true) (hmem : '\n' ∈ t)
    (hne1 : t ≠ ['\n']) :
    handle_token lexer s (tok, t) = string_handler lexer tok t s := by
  have hne : t ≠ [] := fun hh => by simp [hh] at hmem
  simp only [handle_token]
  rw [if_neg hne1, if_neg hne, if_pos ⟨hst, hmem⟩]

theorem handle_token_newline (lexer : LexName) (s : PState) (tok : Tok) :
    handle_token lexer s (tok, ['\n']) = newline_handler lexer tok s := by
  simp [handle_token]

theorem partsText_opt (tok : Tok) (t : List Char) :
    partsText (if t = [] then [] else [(⟨tok, t⟩ : CodePart)]) = t := by
  by_cases h : t = [] <;> simp [h, partsText]

theorem string_handler_two (lexer : LexName) (st : Tok) (a b c : List Char)
    (ha : '\n' ∉ a) (hb : '\n' ∉ b) (hc : '\n' ∉ c) (s : PState) :
    string_handler lexer st (a ++ '\n' :: (b ++ '\n' :: c)) s =
      { parts := if c = [] then [] else [(⟨st, c⟩ : CodePart)],
        lines := s.lines ++
          [CodeLine.make (s.parts ++ [⟨st, a⟩]) lexer,
           CodeLine.make [⟨st, b⟩] lexer] } := by
  unfold string_handler
  rw [splitKeepNl_append_nl a _ ha, splitKeepNl_append_nl b _ hb]
  by_cases hce : c = []
  · subst hce
    rw [show splitKeepNl [] = [] from rfl]
    simp [rstripNl_concat_nl ha, rstripNl_concat_nl hb]
  · have hgl : c.getLast? ≠ some '\n' := fun hh => hc (by
      rw [eq_dropLast_concat hh]
      simp)
    rw [splitKeepNl_no_nl c hc hce]
    simp [rstripNl_concat_nl ha, rstripNl_concat_nl hb,
      rstripNl_no_trailing hgl, hgl, hce]

/-- C4: a string-category token whose text spans three embedded lines,
surrounded by newline-free fragments inside an otherwise single-line
source, parses to exactly three Lines whose texts cover every character
exactly once: the prefix joins the first embedded line, the middle line
stands alone, and the remainder joins the following fragment. -/
theorem multiline_string_three_lines (lexer : LexName) (t1 st t2 t3 : Tok)
    (pre a b c post : List Char)
    (hst : token_is_a st .Str = true)
    (hpre : '\n' ∉ pre) (ha : '\n' ∉ a) (hb : '\n' ∉ b) (hc : '\n' ∉ c)
    (hpost : '\n' ∉ post) :
    (parse_source [(t1, pre), (st, a ++ '\n' :: (b ++ '\n' :: c)), (t2, post),
        (t3, ['\n'])] lexer).map CodeLine.text =
      [pre ++ a, b, c ++ post] := by
  have hmem : '\n' ∈ a ++ '\n' :: (b ++ '\n' :: c) := by simp
  have hne1 : a ++ '\n' :: (b ++ '\n' :: c) ≠ ['\n'] := by
    intro hh
    have := congrArg List.length hh
    simp at this
    omega
  unfold parse_source
  simp only [List.foldl_cons, List.foldl_nil]
  rw [handle_token_accum lexer { parts := [], lines := [] } t1 hpre]
  rw [handle_token_string lexer _ st hst hmem hne1]
  rw [string_handler_two lexer st a b c ha hb hc _]
  rw [handle_token_accum lexer _ t2 hpost]
  rw [handle_token_newline]
  unfold newline_handler
  by_cases hce : c = [] <;> by_cases hpe : post = [] <;>
    by_cases hpree : pre = [] <;>
    simp [hce, hpe, hpree, CodeLine.make, partsText_append, partsText,
      List.append_assoc]

theorem multiline_string_three_lines_witness :
    (parse_source [(Tok.Name, "x=".data),
        (Tok.Str, ("s1".data ++ '\n' :: ("s2".data ++ '\n' :: "s3".data))),
        (Tok.Name, "y".data), (Tok.Text, ['\n'])] .py3).map CodeLine.text =
      ["x=".data ++ "s1".data, "s2".data, "s3".data ++ "y".data] :=
  multiline_string_three_lines .py3 Tok.Name Tok.Str Tok.Name Tok.Text
    "x=".data "s1".data "s2".data "s3".data "y".data
    (by simp [token_is_a]) (by decide) (by decide) (by decide) (by decide)
    (by decide)

end Purdy
